import Mathlib

/-!
Shallow embedding of the `as_with_bytes` crate (src/src/lib.rs).

The crate reinterprets values of `Copy` types as raw bytes and back,
without copying.  In the embedding a `Copy` type is characterized by its
byte width `size_of::<T>()`, and a value of such a type is exactly its
bit pattern: a list of bytes of that width.  The six operations of the
crate become functions on these bit patterns:

- `AsBytes for T`        : `as_bytes` returns the value's bytes;
- `WithBytes for T`      : `with_bytes` reads the first `size_of::<T>()`
  bytes of the buffer (the caller must guarantee the buffer is long
  enough; the hypothesis models the out-of-bounds read being undefined);
- `TryWithBytes for T`   : `try_with_bytes` checks
  `bytes.len() < size_of::<T>()` first and returns `none` in that case;
- `AsBytes for [T]`      : `seq_as_bytes` concatenates element patterns;
- `WithBytes for [T]`    : `seq_with_bytes` cuts the buffer into
  `bytes.len() / size_of::<T>()` chunks; the Rust division panics when
  `size_of::<T>() = 0`, modelled as an absent (`none`) result;
- `TryWithBytes for [T]` : `seq_try_with_bytes` guards the zero-size
  case and otherwise delegates to `seq_with_bytes`.

A second, pointer-level model (`RawSlice`, `as_bytes_raw`,
`with_bytes_raw`) captures the address arithmetic of the scalar
conversions: `as_bytes` is `slice::from_raw_parts(self as *const u8,
size_of::<T>())` and `with_bytes` is a transmute of `bytes.as_ptr()`,
so both preserve the base address.
-/

namespace AsWithBytes

/-- A byte: one of 256 values. -/
abbrev Byte := Fin 256

/-- A `Copy` type of the crate is characterized by its byte width
`mem::size_of::<T>()`. -/
structure CopyType where
  size : Nat

/-- A value of a `Copy` type is its bit pattern: a byte list of exactly
`size` bytes.  This models "plain, self-contained" data whose bits alone
constitute its full value. -/
def Value (t : CopyType) := { bs : List Byte // bs.length = t.size }

/-- The scalar `as_bytes` of `impl AsBytes for T`:
`slice::from_raw_parts(transmute(self), size_of::<T>())`, i.e. the value
viewed as its `size_of::<T>()` underlying bytes. -/
def as_bytes (t : CopyType) (v : Value t) : List Byte := v.val

/-- The scalar `with_bytes` of `impl WithBytes for T`:
`transmute::<_, &T>(bytes.as_ptr())`, i.e. the `T` whose representation
is the first `size_of::<T>()` bytes of the buffer.  The function is
`unsafe` in the source: reading past the end of the buffer is undefined,
so the embedding carries the caller-enforced length precondition. -/
def with_bytes (t : CopyType) (bytes : List Byte)
    (h : t.size ≤ bytes.length) : Value t :=
  ⟨bytes.take t.size, by rw [List.length_take]; omega⟩

/-- The scalar `try_with_bytes` of `impl TryWithBytes for T`:
`if bytes.len() < size_of::<T>() { None } else { Some(T::with_bytes(bytes)) }`. -/
def try_with_bytes (t : CopyType) (bytes : List Byte) : Option (Value t) :=
  if h : bytes.length < t.size then
    none
  else
    some (with_bytes t bytes (Nat.le_of_not_lt h))

/-- The slice `as_bytes` of `impl AsBytes for [T]`:
`slice::from_raw_parts(transmute(self.as_ptr()), self.len() * size_of::<T>())`,
i.e. the concatenation of the element bit patterns. -/
def seq_as_bytes (t : CopyType) (vs : List (Value t)) : List Byte :=
  (vs.map Subtype.val).flatten

/-- Cutting `n` consecutive chunks of `s` bytes each out of a buffer;
chunk `i` holds bytes `[i*s, (i+1)*s)` of the buffer. -/
def chunks (s : Nat) : Nat → List Byte → List (List Byte)
  | 0, _ => []
  | n + 1, bs => bs.take s :: chunks s n (bs.drop s)

/-- The slice `with_bytes` of `impl WithBytes for [T]`:
`slice::from_raw_parts(transmute(bytes.as_ptr()), bytes.len() / size_of::<T>())`.
The element count is `bytes.len() / size_of::<T>()`; when
`size_of::<T>() = 0` the Rust division panics (the doc comment of
`WithBytes::with_bytes` documents this), modelled here as `none`. -/
def seq_with_bytes (t : CopyType) (bytes : List Byte) :
    Option (List (List Byte)) :=
  if t.size = 0 then
    none
  else
    some (chunks t.size (bytes.length / t.size) bytes)

/-- The slice `try_with_bytes` of `impl TryWithBytes for [T]`:
`if size_of::<T>() > 0 { Some(<[T]>::with_bytes(bytes)) } else { None }`. -/
def seq_try_with_bytes (t : CopyType) (bytes : List Byte) :
    Option (List (List Byte)) :=
  if 0 < t.size then
    seq_with_bytes t bytes
  else
    none

/-- Raw-pointer model of a byte slice: `slice::from_raw_parts` builds a
slice from a base address and a length, and `as_ptr` recovers the base
address. -/
structure RawSlice where
  addr : Nat
  len : Nat

/-- The scalar `as_bytes` at the pointer level: given the address of the
value (`self` transmuted to `*const u8`), build the slice
`⟨that address, size_of::<T>()⟩`. -/
def as_bytes_raw (t : CopyType) (self_addr : Nat) : RawSlice :=
  ⟨self_addr, t.size⟩

/-- The scalar `with_bytes` at the pointer level:
`transmute::<_, &T>(bytes.as_ptr())` returns a reference whose address
is the base address of the buffer. -/
def with_bytes_raw (bytes : RawSlice) : Nat := bytes.addr

/-- A byte from an arbitrary natural number, by reduction mod 256. -/
def byteOf (n : Nat) : Byte := ⟨n % 256, Nat.mod_lt _ (by decide)⟩

/-- The little-endian bit pattern of a 4-byte signed integer (`i32`),
as laid out on the machines the crate's own tests run on. -/
def i32bytes (n : Int) : List Byte :=
  let u := (n % (2 : Int) ^ 32).toNat
  [byteOf u, byteOf (u / 256), byteOf (u / 65536), byteOf (u / 16777216)]

/-- The `Copy` type `[i32; 2]`: two 4-byte elements, 8 bytes wide. -/
def i32x2 : CopyType := ⟨8⟩

/-- The array `[10, -11] : [i32; 2]` of the crate's tests, as a value of
`i32x2`. -/
def arr_10_m11 : Value i32x2 := ⟨i32bytes 10 ++ i32bytes (-11), rfl⟩

/-- The `Copy` type `u64`: 8 bytes wide. -/
def u64T : CopyType := ⟨8⟩

/-- The `Copy` type `u16`: 2 bytes wide. -/
def u16T : CopyType := ⟨2⟩

/-- The zero-width `Copy` type `()`. -/
def unitT : CopyType := ⟨0⟩

/-! ### Helper lemmas -/

/-- The byte pattern of a slice has length `len * size`. -/
theorem seq_as_bytes_length (t : CopyType) (vs : List (Value t)) :
    (seq_as_bytes t vs).length = vs.length * t.size := by
  induction vs with
  | nil => simp [seq_as_bytes]
  | cons v vs ih =>
    simp only [seq_as_bytes, List.map_cons, List.flatten_cons,
      List.length_append, List.length_cons, v.property] at *
    rw [ih]; ring

/-- Cutting `n` chunks yields `n` chunks. -/
theorem chunks_length (s n : Nat) (bs : List Byte) :
    (chunks s n bs).length = n := by
  induction n generalizing bs with
  | zero => rfl
  | succ n ih => simp [chunks, ih]

/-- The chunks cut from a buffer concatenate back to its first `n * s`
bytes: trailing bytes beyond the last whole chunk are dropped. -/
theorem chunks_flatten (s n : Nat) (bs : List Byte) :
    (chunks s n bs).flatten = bs.take (n * s) := by
  induction n generalizing bs with
  | zero => simp [chunks]
  | succ n ih =>
    simp only [chunks, List.flatten_cons, ih, Nat.succ_mul, Nat.add_comm (n * s) s]
    rw [List.take_add]

/-- Cutting a concatenation of `s`-byte pieces back into chunks of `s`
recovers the pieces. -/
theorem chunks_of_flatten (s : Nat) (ps : List (List Byte))
    (h : ∀ p ∈ ps, p.length = s) :
    chunks s ps.length ps.flatten = ps := by
  induction ps with
  | nil => rfl
  | cons p ps ih =>
    have hp : p.length = s := h p (List.mem_cons_self p ps)
    have hps : ∀ q ∈ ps, q.length = s := fun q hq => h q (List.mem_cons_of_mem p hq)
    simp only [List.length_cons, List.flatten_cons, chunks]
    rw [← hp, List.take_left, List.drop_left, hp, ih hps]

/-! ### Claim theorems -/

/-- Claim C1, counterexample: the claim says the checked scalar
conversion returns `none` for every zero-width type, but for the
zero-width type `()` and the empty buffer `try_with_bytes` returns a
present result, because the guard `bytes.len() < size_of::<T>()` is
never true when the size is `0`. -/
theorem c1_counterexample :
    unitT.size = 0 ∧ try_with_bytes unitT [] ≠ none := by
  refine ⟨rfl, ?_⟩
  intro hc
  simp [try_with_bytes, unitT] at hc

/-- Claim C1 as amended: for every zero-width (size 0) Copy type `T`
and every byte buffer, the checked scalar conversion `try_with_bytes`
returns a present result (`some`), since the length check
`bytes.len() < 0` never triggers. -/
theorem try_with_bytes_zero_size (t : CopyType) (bytes : List Byte)
    (h : t.size = 0) : (try_with_bytes t bytes).isSome = true := by
  simp [try_with_bytes, h]

/-- Witness for `try_with_bytes_zero_size` at the zero-width type `()`
and the empty buffer. -/
theorem try_with_bytes_zero_size_witness :
    (try_with_bytes unitT []).isSome = true :=
  try_with_bytes_zero_size unitT [] rfl

/-- Claim C2: for every Copy type `T` and value `v`, dereferencing
`with_bytes(as_bytes(v))` yields a value equal to `v` (the instance at
the array `[10, -11] : [i32; 2]` is the witness below). -/
theorem with_bytes_as_bytes (t : CopyType) (v : Value t)
    (h : t.size ≤ (as_bytes t v).length) :
    with_bytes t (as_bytes t v) h = v := by
  apply Subtype.ext
  show (as_bytes t v).take t.size = v.val
  exact List.take_of_length_le (le_of_eq v.property)

/-- Witness for `with_bytes_as_bytes` at the 2-element array of 4-byte
signed integers `[10, -11]`: `as_bytes` then `with_bytes` recovers it
exactly. -/
theorem with_bytes_as_bytes_witness :
    with_bytes i32x2 (as_bytes i32x2 arr_10_m11) (by decide) = arr_10_m11 :=
  with_bytes_as_bytes i32x2 arr_10_m11 (by decide)

/-- Claim C3: the checked scalar conversion returns a present result if
and only if the buffer length is at least `size_of::<T>()`, and when
present the result is the one produced by the unchecked `with_bytes`. -/
theorem try_with_bytes_spec (t : CopyType) (bytes : List Byte) :
    (∀ h : t.size ≤ bytes.length,
      try_with_bytes t bytes = some (with_bytes t bytes h))
    ∧ (bytes.length < t.size → try_with_bytes t bytes = none) := by
  constructor
  · intro h
    simp [try_with_bytes, Nat.not_lt.mpr h]
  · intro h
    simp [try_with_bytes, h]

/-- Witness for `try_with_bytes_spec` at `T = u64`: an 8-byte buffer
yields a present result equal to the `with_bytes` result, a 7-byte
buffer yields `none`. -/
theorem try_with_bytes_spec_witness :
    try_with_bytes u64T (List.replicate 8 (0 : Byte))
      = some (with_bytes u64T (List.replicate 8 (0 : Byte)) (by decide))
    ∧ try_with_bytes u64T (List.replicate 7 (0 : Byte)) = none :=
  ⟨(try_with_bytes_spec u64T (List.replicate 8 (0 : Byte))).1 (by decide),
   (try_with_bytes_spec u64T (List.replicate 7 (0 : Byte))).2 (by decide)⟩

/-- Claim C4: for a positive element size, the unchecked
bytes-to-sequence conversion returns a run of exactly
`bytes.len() / size_of::<T>()` elements, whose bytes are exactly the
leading whole-element bytes of the buffer (trailing bytes below one
element width are dropped, no error is reported). -/
theorem seq_with_bytes_spec (t : CopyType) (bytes : List Byte)
    (h : 0 < t.size) :
    ∃ run, seq_with_bytes t bytes = some run
      ∧ run.length = bytes.length / t.size
      ∧ run.flatten = bytes.take (bytes.length / t.size * t.size) := by
  refine ⟨chunks t.size (bytes.length / t.size) bytes, ?_, ?_, ?_⟩
  · simp [seq_with_bytes, Nat.pos_iff_ne_zero.mp h]
  · exact chunks_length _ _ _
  · exact chunks_flatten _ _ _

/-- Witness for `seq_with_bytes_spec`: a 7-byte buffer with 2-byte
elements yields exactly 3 elements, covering the first 6 bytes. -/
theorem seq_with_bytes_spec_witness :
    0 < u16T.size ∧ ∃ run,
      seq_with_bytes u16T (List.replicate 7 (1 : Byte)) = some run
      ∧ run.length = 3
      ∧ run.flatten = (List.replicate 7 (1 : Byte)).take 6 :=
  ⟨by decide, seq_with_bytes_spec u16T (List.replicate 7 (1 : Byte)) (by decide)⟩

/-- Claim C5: the checked bytes-to-sequence conversion returns an
absent result if and only if `size_of::<T>() = 0`; when the buffer is
shorter than one element (which forces a positive element size) the
present result is the empty sequence. -/
theorem seq_try_with_bytes_spec (t : CopyType) (bytes : List Byte) :
    (seq_try_with_bytes t bytes = none ↔ t.size = 0)
    ∧ (bytes.length < t.size → seq_try_with_bytes t bytes = some []) := by
  rcases Nat.eq_zero_or_pos t.size with h | h
  · constructor
    · simp [seq_try_with_bytes, h]
    · intro hlt; omega
  · constructor
    · simp [seq_try_with_bytes, seq_with_bytes, h, Nat.pos_iff_ne_zero.mp h]
    · intro hlt
      have hdiv : bytes.length / t.size = 0 := Nat.div_eq_of_lt hlt
      simp [seq_try_with_bytes, seq_with_bytes, h, Nat.pos_iff_ne_zero.mp h,
        hdiv, chunks]

/-- Witness for `seq_try_with_bytes_spec`: a zero-width element type
gives `none` even on the empty buffer, and a 1-byte buffer with 2-byte
elements gives the present empty sequence. -/
theorem seq_try_with_bytes_spec_witness :
    seq_try_with_bytes unitT [] = none
    ∧ seq_try_with_bytes u16T [byteOf 5] = some [] :=
  ⟨(seq_try_with_bytes_spec unitT []).1.mpr rfl,
   (seq_try_with_bytes_spec u16T [byteOf 5]).2 (by decide)⟩

/-- Claim C6: `as_bytes` on a scalar value returns a byte view of
exactly `size_of::<T>()` bytes. -/
theorem as_bytes_length (t : CopyType) (v : Value t) :
    (as_bytes t v).length = t.size := v.property

/-- Claim C7: at the pointer level, `as_bytes` starts at the value's
own address and `with_bytes` of `as_bytes` returns a reference whose
address equals the address of the original value: nothing is copied. -/
theorem zero_copy_identity (t : CopyType) (a : Nat) :
    (as_bytes_raw t a).addr = a ∧ with_bytes_raw (as_bytes_raw t a) = a :=
  ⟨rfl, rfl⟩

/-- Claim C8: `as_bytes` on a slice returns a byte view of exactly
`len * size_of::<T>()` bytes. -/
theorem seq_as_bytes_length_spec (t : CopyType) (vs : List (Value t)) :
    (seq_as_bytes t vs).length = vs.length * t.size :=
  seq_as_bytes_length t vs

/-- Claim C9: for a positive element size, the sequence round trip
`sequence_with_bytes(sequence_as_bytes(vs))` yields exactly the
elements of `vs` (same length, same elements; no truncation since the
byte length is an exact multiple of the element size). -/
theorem seq_round_trip (t : CopyType) (vs : List (Value t))
    (h : 0 < t.size) :
    seq_with_bytes t (seq_as_bytes t vs) = some (vs.map Subtype.val) := by
  have hdiv : (seq_as_bytes t vs).length / t.size = vs.length := by
    rw [seq_as_bytes_length]; exact Nat.mul_div_cancel _ h
  have hrw : seq_with_bytes t (seq_as_bytes t vs)
      = some (chunks t.size vs.length (seq_as_bytes t vs)) := by
    simp [seq_with_bytes, Nat.pos_iff_ne_zero.mp h, hdiv]
  rw [hrw]
  congr 1
  have hmem : ∀ p ∈ vs.map Subtype.val, p.length = t.size := by
    intro p hp
    obtain ⟨v, _, rfl⟩ := List.mem_map.mp hp
    exact v.property
  have hof := chunks_of_flatten t.size (vs.map Subtype.val) hmem
  simpa [seq_as_bytes, List.length_map] using hof

/-- A concrete 2-byte value used by the sequence round-trip witness. -/
def v16 : Value u16T := ⟨[byteOf 1, byteOf 2], rfl⟩

/-- Witness for `seq_round_trip` at a one-element slice of 2-byte
values. -/
theorem seq_round_trip_witness :
    seq_with_bytes u16T (seq_as_bytes u16T [v16]) = some [v16.val] :=
  seq_round_trip u16T [v16] (by decide)

/-- Claim C10: for a zero-width element type, the unchecked
bytes-to-sequence conversion does not return a run: the Rust division
`bytes.len() / 0` panics deterministically, modelled as the absent
result. -/
theorem seq_with_bytes_zero_size (t : CopyType) (bytes : List Byte)
    (h : t.size = 0) : seq_with_bytes t bytes = none := by
  simp [seq_with_bytes, h]

/-- Witness for `seq_with_bytes_zero_size` at the element type `()` and
a 1-byte buffer. -/
theorem seq_with_bytes_zero_size_witness :
    seq_with_bytes unitT [byteOf 0] = none :=
  seq_with_bytes_zero_size unitT [byteOf 0] rfl

end AsWithBytes
